import Mathlib

/-!
Verification development for the MiFGD quantum state tomography core:
the Pauli operator model (labels, efficient per-axis application, dense
tensor-product construction), the measurement aggregator, and the
momentum-accelerated factored-gradient optimizer (MiFGD) state machine.
-/

namespace MiFGD

noncomputable section

open Matrix

open scoped ComplexOrder

/-- Bit strings indexing the 2^n-dimensional state space: one bit per qubit. -/
abbrev Bits (n : ℕ) := Fin n → Fin 2

/-- A Pauli label character: names one of the four single-qubit Pauli matrices. -/
inductive PauliChar
  | I
  | X
  | Y
  | Z
  deriving DecidableEq

/-- The four single-qubit 2×2 complex Pauli matrices named by label characters. -/
def pauliMat : PauliChar → Matrix (Fin 2) (Fin 2) ℂ
  | .I => 1
  | .X => !![0, 1; 1, 0]
  | .Y => !![0, -Complex.I; Complex.I, 0]
  | .Z => !![1, 0; 0, -1]

/-- A measurement label: one Pauli character per qubit (length-n string over I,X,Y,Z). -/
abbrev Label (n : ℕ) := Fin n → PauliChar

/-- Apply a 2×2 matrix to tensor axis `j` of a state vector: one step of the
efficient per-qubit application path, which never forms the 2^n × 2^n matrix. -/
def applyAxis {n : ℕ} (M : Matrix (Fin 2) (Fin 2) ℂ) (j : Fin n) (v : Bits n → ℂ) :
    Bits n → ℂ :=
  fun b => ∑ c : Fin 2, M (b j) c * v (Function.update b j c)

/-- Apply the per-qubit matrices of a label along a list of axes, one axis at a time. -/
def applyAxes {n : ℕ} (L : Label n) : List (Fin n) → (Bits n → ℂ) → (Bits n → ℂ)
  | [], v => v
  | j :: js, v => applyAxes L js (applyAxis (pauliMat (L j)) j v)

/-- The efficient application of a full Pauli-string operator: successively apply
each qubit's 2×2 matrix to the corresponding tensor axis. -/
def applyPauli {n : ℕ} (L : Label n) (v : Bits n → ℂ) : Bits n → ℂ :=
  applyAxes L (List.finRange n) v

/-- The dense 2^n × 2^n Pauli-string operator built by explicit tensor (Kronecker)
product: entry (a,b) is the product over qubits of the per-qubit matrix entries. -/
def densePauli {n : ℕ} (L : Label n) : Matrix (Bits n) (Bits n) ℂ :=
  Matrix.of fun a b => ∏ j, pauliMat (L j) (a j) (b j)

/-- Dense operator acting as the label's matrices on the axes in `s` and as the
identity on the remaining axes. -/
def denseOn {n : ℕ} (L : Label n) (s : Finset (Fin n)) : Matrix (Bits n) (Bits n) ℂ :=
  Matrix.of fun a b =>
    ∏ j, if j ∈ s then pauliMat (L j) (a j) (b j) else (if a j = b j then 1 else 0)

/-- Dense operator acting as `M` on axis `j` and as the identity elsewhere. -/
def singleDense {n : ℕ} (M : Matrix (Fin 2) (Fin 2) ℂ) (j : Fin n) :
    Matrix (Bits n) (Bits n) ℂ :=
  Matrix.of fun a b =>
    M (a j) (b j) * ∏ k ∈ Finset.univ.erase j, (if a k = b k then (1 : ℂ) else 0)

theorem sum_delta_update {n : ℕ} (j : Fin n) (a : Bits n) (f : Bits n → ℂ) :
    ∑ g : Bits n, (∏ k ∈ Finset.univ.erase j, if a k = g k then (1 : ℂ) else 0) * f g
      = ∑ c : Fin 2, f (Function.update a j c) := by
  have key : ∀ g : Bits n,
      (∏ k ∈ Finset.univ.erase j, if a k = g k then (1 : ℂ) else 0) * f g
        = ∑ c : Fin 2, if g = Function.update a j c then f g else 0 := by
    intro g
    rw [Finset.prod_boole]
    by_cases h : ∀ k ∈ Finset.univ.erase j, a k = g k
    · have h' : ∀ x, x ≠ j → g x = a x := fun x hx =>
        (h x (Finset.mem_erase.mpr ⟨hx, Finset.mem_univ x⟩)).symm
      rw [if_pos h, one_mul]
      have hcond : ∀ c : Fin 2, (g = Function.update a j c) ↔ (g j = c) := by
        intro c
        rw [Function.eq_update_iff]
        exact and_iff_left h'
      calc f g = ∑ c : Fin 2, if g j = c then f g else 0 := by
            rw [Finset.sum_ite_eq]; simp
        _ = ∑ c : Fin 2, if g = Function.update a j c then f g else 0 := by
            refine Finset.sum_congr rfl fun c _ => ?_
            by_cases hc : g j = c
            · rw [if_pos hc, if_pos ((hcond c).mpr hc)]
            · rw [if_neg hc, if_neg (fun hg => hc ((hcond c).mp hg))]
    · rw [if_neg h, zero_mul]
      push_neg at h
      obtain ⟨k, hk, hak⟩ := h
      have hkj : k ≠ j := (Finset.mem_erase.mp hk).1
      symm
      refine Finset.sum_eq_zero fun c _ => ?_
      rw [if_neg]
      intro hg
      exact hak (((Function.eq_update_iff.mp hg).2 k hkj).symm)
  calc ∑ g : Bits n, (∏ k ∈ Finset.univ.erase j, if a k = g k then (1 : ℂ) else 0) * f g
      = ∑ g : Bits n, ∑ c : Fin 2, if g = Function.update a j c then f g else 0 := by
        exact Finset.sum_congr rfl fun g _ => key g
    _ = ∑ c : Fin 2, ∑ g : Bits n, if g = Function.update a j c then f g else 0 :=
        Finset.sum_comm
    _ = ∑ c : Fin 2, f (Function.update a j c) := by
        refine Finset.sum_congr rfl fun c _ => ?_
        rw [Finset.sum_ite_eq']
        simp

theorem ite_eq_flip {α : Type} [DecidableEq α] (x y : α) :
    (if x = y then (1 : ℂ) else 0) = (if y = x then 1 else 0) := by
  by_cases h : x = y
  · rw [if_pos h, if_pos h.symm]
  · rw [if_neg h, if_neg fun hh => h hh.symm]

theorem applyAxis_eq_mulVec {n : ℕ} (M : Matrix (Fin 2) (Fin 2) ℂ) (j : Fin n)
    (v : Bits n → ℂ) :
    applyAxis M j v = (singleDense M j).mulVec v := by
  funext a
  have h := sum_delta_update j a (fun g => M (a j) (g j) * v g)
  simp only [Function.update_same] at h
  calc applyAxis M j v a
      = ∑ c : Fin 2, M (a j) c * v (Function.update a j c) := rfl
    _ = ∑ g : Bits n,
          (∏ k ∈ Finset.univ.erase j, if a k = g k then (1 : ℂ) else 0)
            * (M (a j) (g j) * v g) := h.symm
    _ = (singleDense M j).mulVec v a := by
        simp only [Matrix.mulVec, Matrix.dotProduct, singleDense, Matrix.of_apply]
        refine Finset.sum_congr rfl fun g _ => ?_
        ring

theorem denseOn_mul_singleDense {n : ℕ} (L : Label n) (s : Finset (Fin n)) (j : Fin n)
    (hj : j ∉ s) :
    denseOn L s * singleDense (pauliMat (L j)) j = denseOn L (insert j s) := by
  ext a b
  rw [Matrix.mul_apply]
  have step1 : ∀ g : Bits n,
      denseOn L s a g * singleDense (pauliMat (L j)) j g b
        = (∏ k ∈ Finset.univ.erase j, if b k = g k then (1 : ℂ) else 0)
            * (denseOn L s a g * pauliMat (L j) (g j) (b j)) := by
    intro g
    simp only [singleDense, Matrix.of_apply]
    rw [Finset.prod_congr rfl fun k _ => ite_eq_flip (g k) (b k)]
    ring
  rw [Finset.sum_congr rfl fun g _ => step1 g,
    sum_delta_update j b (fun g => denseOn L s a g * pauliMat (L j) (g j) (b j))]
  simp only [Function.update_same]
  have expand : ∀ c : Fin 2,
      denseOn L s a (Function.update b j c)
        = (if a j = c then (1 : ℂ) else 0)
            * ∏ k ∈ Finset.univ.erase j,
                (if k ∈ s then pauliMat (L k) (a k) (b k)
                 else if a k = b k then 1 else 0) := by
    intro c
    simp only [denseOn, Matrix.of_apply]
    rw [← Finset.mul_prod_erase Finset.univ _ (Finset.mem_univ j)]
    congr 1
    · rw [if_neg hj, Function.update_same]
    · refine Finset.prod_congr rfl fun k hk => ?_
      rw [Function.update_noteq (Finset.mem_erase.mp hk).1]
  rw [Finset.sum_congr rfl fun c _ => by rw [expand c]]
  simp only [ite_mul, one_mul, zero_mul]
  rw [Finset.sum_ite_eq]
  simp only [Finset.mem_univ, if_pos]
  have rhs : denseOn L (insert j s) a b
      = pauliMat (L j) (a j) (b j)
          * ∏ k ∈ Finset.univ.erase j,
              (if k ∈ s then pauliMat (L k) (a k) (b k)
               else if a k = b k then 1 else 0) := by
    simp only [denseOn, Matrix.of_apply]
    rw [← Finset.mul_prod_erase Finset.univ _ (Finset.mem_univ j)]
    congr 1
    · rw [if_pos (Finset.mem_insert_self j s)]
    · refine Finset.prod_congr rfl fun k hk => ?_
      have hkj : k ≠ j := (Finset.mem_erase.mp hk).1
      by_cases hks : k ∈ s
      · rw [if_pos hks, if_pos (Finset.mem_insert_of_mem hks)]
      · rw [if_neg hks, if_neg (fun hmem => by
          rcases Finset.mem_insert.mp hmem with h | h
          · exact hkj h
          · exact hks h)]
  rw [rhs]
  ring

theorem denseOn_empty {n : ℕ} (L : Label n) : denseOn L ∅ = 1 := by
  ext a b
  simp only [denseOn, Matrix.of_apply, Finset.not_mem_empty, if_false]
  rw [Fintype.prod_boole]
  by_cases h : a = b
  · subst h; simp [Matrix.one_apply]
  · have h' : ¬ ∀ j, a j = b j := fun hh => h (funext hh)
    simp [Matrix.one_apply, h, h']

theorem applyAxes_eq_mulVec {n : ℕ} (L : Label n) (js : List (Fin n)) (hnd : js.Nodup)
    (v : Bits n → ℂ) :
    applyAxes L js v = (denseOn L js.toFinset).mulVec v := by
  induction js generalizing v with
  | nil =>
    simp [applyAxes, denseOn_empty, Matrix.one_mulVec]
  | cons j js ih =>
    have hj : j ∉ js := (List.nodup_cons.mp hnd).1
    have hjf : j ∉ js.toFinset := fun hmem => hj (List.mem_toFinset.mp hmem)
    calc applyAxes L (j :: js) v
        = applyAxes L js (applyAxis (pauliMat (L j)) j v) := rfl
      _ = (denseOn L js.toFinset).mulVec ((singleDense (pauliMat (L j)) j).mulVec v) := by
          rw [ih (List.nodup_cons.mp hnd).2, applyAxis_eq_mulVec]
      _ = (denseOn L js.toFinset * singleDense (pauliMat (L j)) j).mulVec v := by
          rw [Matrix.mulVec_mulVec]
      _ = (denseOn L (j :: js).toFinset).mulVec v := by
          rw [denseOn_mul_singleDense L _ j hjf, List.toFinset_cons]

theorem denseOn_univ {n : ℕ} (L : Label n) : denseOn L Finset.univ = densePauli L := by
  ext a b
  simp [denseOn, densePauli]

/-- The efficient per-axis application path agrees with multiplication by the
explicitly constructed dense tensor-product operator. -/
theorem applyPauli_eq_mulVec {n : ℕ} (L : Label n) (v : Bits n → ℂ) :
    applyPauli L v = (densePauli L).mulVec v := by
  rw [applyPauli, applyAxes_eq_mulVec L _ (List.nodup_finRange n),
    List.toFinset_finRange, denseOn_univ]

theorem pauliMat_mul_self (c : PauliChar) : pauliMat c * pauliMat c = 1 := by
  cases c <;>
    · ext i j
      fin_cases i <;> fin_cases j <;>
        simp [pauliMat, Matrix.mul_apply, Fin.sum_univ_two, Matrix.one_apply]

theorem densePauli_mul_self {n : ℕ} (L : Label n) : densePauli L * densePauli L = 1 := by
  ext a b
  rw [Matrix.mul_apply]
  have h1 : ∀ g : Bits n,
      densePauli L a g * densePauli L g b
        = ∏ j, (pauliMat (L j) (a j) (g j) * pauliMat (L j) (g j) (b j)) := by
    intro g
    simp only [densePauli, Matrix.of_apply]
    rw [Finset.prod_mul_distrib]
  rw [Finset.sum_congr rfl fun g _ => h1 g, ← Fintype.piFinset_univ,
    Finset.sum_prod_piFinset Finset.univ
      (fun j c => pauliMat (L j) (a j) c * pauliMat (L j) c (b j))]
  have h2 : ∀ j : Fin n,
      (∑ c : Fin 2, pauliMat (L j) (a j) c * pauliMat (L j) c (b j))
        = (1 : Matrix (Fin 2) (Fin 2) ℂ) (a j) (b j) := by
    intro j
    rw [← Matrix.mul_apply, pauliMat_mul_self]
  rw [Finset.prod_congr rfl fun j _ => h2 j]
  by_cases h : a = b
  · subst h; simp [Matrix.one_apply]
  · have h' : ¬ ∀ j, a j = b j := fun hh => h (funext hh)
    obtain ⟨j, hj⟩ := not_forall.mp h'
    rw [Matrix.one_apply_ne h]
    exact Finset.prod_eq_zero (Finset.mem_univ j) (Matrix.one_apply_ne hj)

/-- Apply a Pauli-string operator to every column of a factor, via the
efficient per-axis path. -/
def applyPauliCols {n r : ℕ} (L : Label n) (U : Matrix (Bits n) (Fin r) ℂ) :
    Matrix (Bits n) (Fin r) ℂ :=
  Matrix.of fun b t => applyPauli L (fun a => U a t) b

/-- The quadratic form u†·P·u summed across the columns u of the factor U,
computed through the efficient apply path: one predicted measurement entry. -/
def quadForm {n r : ℕ} (L : Label n) (U : Matrix (Bits n) (Fin r) ℂ) : ℂ :=
  ∑ t : Fin r, ∑ a : Bits n, (starRingEnd ℂ) (U a t) * applyPauliCols L U a t

/-- predict(U): the estimated measurement vector, one quadratic-form entry per
label of the ordered label list. -/
def predict {n r m : ℕ} (Ls : Fin m → Label n) (U : Matrix (Bits n) (Fin r) ℂ) :
    Fin m → ℂ :=
  fun k => quadForm (Ls k) U

/-- The same predicted entry computed from the dense tensor-product operator:
Tr(P·U·U†). -/
theorem quadForm_eq_trace {n r : ℕ} (L : Label n) (U : Matrix (Bits n) (Fin r) ℂ) :
    quadForm L U = Matrix.trace (densePauli L * U * Uᴴ) := by
  simp only [quadForm, applyPauliCols, Matrix.of_apply]
  have h1 : ∀ (t : Fin r) (a : Bits n),
      applyPauli L (fun x => U x t) a = ∑ g : Bits n, densePauli L a g * U g t := by
    intro t a
    rw [applyPauli_eq_mulVec]
    rfl
  simp only [h1]
  rw [Matrix.trace]
  simp only [Matrix.diag_apply, Matrix.mul_apply, Matrix.conjTranspose_apply]
  rw [Finset.sum_comm]
  refine Finset.sum_congr rfl fun t _ => Finset.sum_congr rfl fun a _ => ?_
  rw [Finset.mul_sum, Finset.sum_mul]
  refine Finset.sum_congr rfl fun g _ => ?_
  simp only [RCLike.star_def]
  ring

/-- adjoint_apply(residual, U): Σₖ rₖ·(Pₖ applied to U), the gradient direction
(spec §4.4). -/
def adjointApply {n r m : ℕ} (Ls : Fin m → Label n) (res : Fin m → ℂ)
    (U : Matrix (Bits n) (Fin r) ℂ) : Matrix (Bits n) (Fin r) ℂ :=
  ∑ k, res k • applyPauliCols (Ls k) U

/-- Modelled from the spec: the optimizer's per-run state {U, Z, iteration index}
(spec §3 WorkerState; methods.py of the qutomo package is not among the provided
sources). -/
structure WorkerState (n r : ℕ) where
  U : Matrix (Bits n) (Fin r) ℂ
  Z : Matrix (Bits n) (Fin r) ℂ
  iter : ℕ

/-- Modelled from the spec: the optimizer configuration (spec §4.5 and §6):
ordered labels, measurement vector y, step size η, momentum μ, iteration budget,
optional relative-change tolerance, and the initial factor U₀. -/
structure Config (n r m : ℕ) where
  labels : Fin m → Label n
  y : Fin m → ℂ
  eta : ℝ
  mu : ℝ
  budget : ℕ
  tol : Option ℝ
  U0 : Matrix (Bits n) (Fin r) ℂ

/-- Modelled from the spec: initialization chooses U₀ and sets Z₀ = U₀ (spec §4.5). -/
def initState {n r m : ℕ} (cfg : Config n r m) : WorkerState n r :=
  ⟨cfg.U0, cfg.U0, 0⟩

/-- Modelled from the spec (§4.5) and the MiFGD iteration equations displayed in
the notebook (qutomo_example.ipynb, cell-25): one accelerated iteration. -/
def stepState {n r m : ℕ} (cfg : Config n r m) (st : WorkerState n r) : WorkerState n r :=
  let residual := fun k => predict cfg.labels st.Z k - cfg.y k
  let grad := adjointApply cfg.labels residual st.Z
  let Unew := st.Z - (cfg.eta : ℂ) • grad
  let Znew := Unew + (cfg.mu : ℂ) • (Unew - st.U)
  ⟨Unew, Znew, st.iter + 1⟩

/-- The iteration trajectory: the worker state after i accelerated iterations. -/
def trajectory {n r m : ℕ} (cfg : Config n r m) : ℕ → WorkerState n r
  | 0 => initState cfg
  | i + 1 => stepState cfg (trajectory cfg i)

/-- Squared Frobenius norm of a complex matrix. -/
def frobSq {n r : ℕ} (A : Matrix (Bits n) (Fin r) ℂ) : ℝ :=
  ∑ a, ∑ t, Complex.normSq (A a t)

/-- Frobenius norm of a complex matrix. -/
def frobNorm {n r : ℕ} (A : Matrix (Bits n) (Fin r) ℂ) : ℝ :=
  Real.sqrt (frobSq A)

/-- Modelled from the spec: relative change ‖U_{i+1} − Uᵢ‖ / ‖Uᵢ‖ (spec §4.5
step 5). -/
def relChange {n r : ℕ} (Uold Unew : Matrix (Bits n) (Fin r) ℂ) : ℝ :=
  frobNorm (Unew - Uold) / frobNorm Uold

/-- Modelled from the spec: the optional relative-change convergence test; with
no tolerance configured the test never fires. -/
def convergedAt {n r : ℕ} (tol : Option ℝ) (Uold Unew : Matrix (Bits n) (Fin r) ℂ) :
    Bool :=
  match tol with
  | none => false
  | some τ => decide (relChange Uold Unew < τ)

/-- The two terminal reasons of the optimizer state machine (spec §4.5). -/
inductive TermReason
  | CONVERGED
  | BUDGET_EXHAUSTED
  deriving DecidableEq

/-- The states of the MiFGD optimizer state machine (spec §4.5). -/
inductive Phase
  | INIT
  | ITERATING
  | CONVERGED
  | BUDGET_EXHAUSTED
  | TERMINATED
  deriving DecidableEq

/-- Modelled from the spec: the outcome the worker exposes after compute. -/
structure Outcome (n r : ℕ) where
  finalState : WorkerState n r
  reason : TermReason
  phase : Phase

/-- Modelled from the spec: the iteration loop; fuel is the remaining budget.
Stops with CONVERGED as soon as the configured tolerance test fires, and with
BUDGET_EXHAUSTED when the budget is used up. -/
def loopIter {n r m : ℕ} (cfg : Config n r m) (st : WorkerState n r) :
    ℕ → WorkerState n r × TermReason
  | 0 => (st, .BUDGET_EXHAUSTED)
  | fuel + 1 =>
    let st' := stepState cfg st
    if convergedAt cfg.tol st.U st'.U then (st', .CONVERGED)
    else loopIter cfg st' fuel

/-- Modelled from the spec: worker.compute — run from the initial state for at
most the configured budget; either terminal reason leads to TERMINATED. -/
def compute {n r m : ℕ} (cfg : Config n r m) : Outcome n r :=
  let p := loopIter cfg (initState cfg) cfg.budget
  ⟨p.1, p.2, Phase.TERMINATED⟩

/-- Modelled from the spec: the exposed answer is the final U iterate, not the
momentum variable Z. -/
def answer {n r m : ℕ} (cfg : Config n r m) : Matrix (Bits n) (Fin r) ℂ :=
  (compute cfg).finalState.U

theorem stepState_iter {n r m : ℕ} (cfg : Config n r m) (st : WorkerState n r) :
    (stepState cfg st).iter = st.iter + 1 := rfl

theorem convergedAt_true_iff {n r : ℕ} (tol : Option ℝ)
    (Uold Unew : Matrix (Bits n) (Fin r) ℂ) :
    convergedAt tol Uold Unew = true ↔ ∃ τ, tol = some τ ∧ relChange Uold Unew < τ := by
  cases tol with
  | none => simp [convergedAt]
  | some τ => simp [convergedAt]

theorem loopIter_spec {n r m : ℕ} (cfg : Config n r m) :
    ∀ (fuel : ℕ) (st : WorkerState n r),
      ((loopIter cfg st fuel).2 = TermReason.BUDGET_EXHAUSTED →
        (loopIter cfg st fuel).1.iter = st.iter + fuel) ∧
      ((loopIter cfg st fuel).2 = TermReason.CONVERGED →
        ∃ τ prev, cfg.tol = some τ ∧ (loopIter cfg st fuel).1 = stepState cfg prev ∧
          relChange prev.U (stepState cfg prev).U < τ) := by
  intro fuel
  induction fuel with
  | zero =>
    intro st
    constructor
    · intro _
      rfl
    · intro h
      simp [loopIter] at h
  | succ fuel ih =>
    intro st
    by_cases hc : convergedAt cfg.tol st.U (stepState cfg st).U = true
    · have hres : loopIter cfg st (fuel + 1) = (stepState cfg st, TermReason.CONVERGED) := by
        simp [loopIter, hc]
      rw [hres]
      refine ⟨fun h => (by cases h), fun _ => ?_⟩
      obtain ⟨τ, hτ, hrel⟩ := (convergedAt_true_iff cfg.tol st.U (stepState cfg st).U).mp hc
      exact ⟨τ, st, hτ, rfl, hrel⟩
    · have hres : loopIter cfg st (fuel + 1) = loopIter cfg (stepState cfg st) fuel := by
        simp [loopIter, hc]
      rw [hres]
      refine ⟨fun h => ?_, fun h => (ih (stepState cfg st)).2 h⟩
      have := (ih (stepState cfg st)).1 h
      rw [this, stepState_iter]
      omega

/-- Modelled from the spec (§7): the numerical-error signal raised when a
non-finite value appears during an iteration. -/
inductive NumericalError
  | nonFinite
  deriving DecidableEq

/-- All entries of a matrix pass the float classifier. Exact complex arithmetic
has no non-finite values, so the classifier standing for IEEE isfinite is an
explicit parameter. -/
def matAllFinite {n r : ℕ} (finOk : ℂ → Bool) (A : Matrix (Bits n) (Fin r) ℂ) : Bool :=
  decide (∀ a t, finOk (A a t) = true)

/-- Modelled from the spec (§4.5, §7): one checked iteration — compute the new
state; if a non-finite value appears in the residual, U, or Z, signal
NumericalError instead of returning the corrupted state. -/
def stepChecked {n r m : ℕ} (cfg : Config n r m) (finOk : ℂ → Bool)
    (st : WorkerState n r) : Except NumericalError (WorkerState n r) :=
  let residual := fun k => predict cfg.labels st.Z k - cfg.y k
  let st' := stepState cfg st
  if decide (∀ k, finOk (residual k) = true) && matAllFinite finOk st'.U
      && matAllFinite finOk st'.Z
  then .ok st' else .error .nonFinite

/-- Modelled from the spec: the checked iteration loop; on a numerical error the
last valid worker state is retained and returned with the error. -/
def loopChecked {n r m : ℕ} (cfg : Config n r m) (finOk : ℂ → Bool)
    (st : WorkerState n r) :
    ℕ → Except (NumericalError × WorkerState n r) (WorkerState n r × TermReason)
  | 0 => .ok (st, .BUDGET_EXHAUSTED)
  | fuel + 1 =>
    match stepChecked cfg finOk st with
    | .error e => .error (e, st)
    | .ok st' =>
      if convergedAt cfg.tol st.U st'.U then .ok (st', .CONVERGED)
      else loopChecked cfg finOk st' fuel

/-- Modelled from the spec (§7): the two data-mismatch failure modes detected at
construction time. -/
inductive DataMismatchError
  | labelSetMismatch
  | badShotTotal
  deriving DecidableEq

/-- Modelled from the spec: the raw inputs handed to the worker constructor —
projector labels, measurement labels with per-label outcome histograms, and the
configured shot count. -/
structure RawData (n : ℕ) where
  projLabels : List (Label n)
  measLabels : List (Label n)
  hist : Label n → Bits n → ℕ
  shots : ℕ

/-- Modelled from the spec (§7, Scenario B): constructor-time validation —
the projector and measurement label sets must coincide and every histogram must
total the configured shot count, before any iteration is run. -/
def validateData {n : ℕ} (d : RawData n) : Except DataMismatchError Unit :=
  if d.projLabels.toFinset = d.measLabels.toFinset then
    (if ∀ L ∈ d.measLabels, (∑ b, d.hist L b) = d.shots then Except.ok ()
     else Except.error DataMismatchError.badShotTotal)
  else Except.error DataMismatchError.labelSetMismatch

/-- Modelled from the spec: optimizer construction — validate first; on a data
mismatch no worker is built and no optimization work is performed. -/
def mkWorker {n r m : ℕ} (d : RawData n) (cfg : Config n r m) :
    Except DataMismatchError (Config n r m) :=
  (validateData d).map fun _ => cfg

/-- Construction followed by compute: on a mismatch the error propagates and
compute never runs. -/
def runPipeline {n r m : ℕ} (d : RawData n) (cfg : Config n r m) :
    Except DataMismatchError (Outcome n r) :=
  (mkWorker d cfg).map compute

/-- Modelled from the spec (§4.3): parity of an outcome bitstring for a label —
the product over non-I positions of +1 for bit 0 and −1 for bit 1
(measurements.py of the qutomo package is not among the provided sources). -/
def parity {n : ℕ} (L : Label n) (b : Bits n) : ℤ :=
  ∏ j, if L j ≠ PauliChar.I ∧ b j = 1 then -1 else 1

/-- Modelled from the spec (§4.3): the Measurement Aggregator's sample-mean
expectation value — parities weighted by (count / total shots). -/
def expectation {n : ℕ} (L : Label n) (hist : Bits n → ℕ) (shots : ℕ) : ℚ :=
  ∑ b, (parity L b : ℚ) * ((hist b : ℚ) / (shots : ℚ))

theorem parity_abs {n : ℕ} (L : Label n) (b : Bits n) : |parity L b| = 1 := by
  unfold parity
  rw [Finset.abs_prod]
  refine Finset.prod_eq_one fun j _ => ?_
  by_cases hj : L j ≠ PauliChar.I ∧ b j = 1
  · rw [if_pos hj]; rfl
  · rw [if_neg hj]; rfl

/-- Modelled from the spec (§2, §6): save a label-keyed store (projector
descriptors or measurement data) to a persisted association list; the on-disk
format is opaque to the core. -/
def saveStore {α : Type} {n m : ℕ} (labels : Fin m → Label n) (payload : Fin m → α) :
    List (Label n × α) :=
  (List.finRange m).map fun k => (labels k, payload k)

/-- Modelled from the spec: rebuild the label-keyed store from persisted data. -/
def loadStore {α : Type} {n : ℕ} (dflt : α) : List (Label n × α) → Label n → α
  | [], _ => dflt
  | (L0, x) :: rest, L => if L = L0 then x else loadStore dflt rest L

theorem loadStore_map {α : Type} {n m : ℕ} (labels : Fin m → Label n)
    (hinj : Function.Injective labels) (payload : Fin m → α) (dflt : α) (k : Fin m) :
    ∀ l : List (Fin m), k ∈ l →
      loadStore dflt (l.map fun j => (labels j, payload j)) (labels k) = payload k := by
  intro l
  induction l with
  | nil => intro h; cases h
  | cons j l ih =>
    intro hmem
    simp only [List.map_cons, loadStore]
    by_cases hkj : k = j
    · subst hkj
      rw [if_pos rfl]
    · have hne : labels k ≠ labels j := fun h => hkj (hinj h)
      rw [if_neg hne]
      refine ih ?_
      rcases List.mem_cons.mp hmem with h | h
      · exact absurd h hkj
      · exact h

theorem loadStore_saveStore {α : Type} {n m : ℕ} (labels : Fin m → Label n)
    (hinj : Function.Injective labels) (payload : Fin m → α) (dflt : α) (k : Fin m) :
    loadStore dflt (saveStore labels payload) (labels k) = payload k :=
  loadStore_map labels hinj payload dflt k (List.finRange m) (List.mem_finRange k)

/-- Modelled from the spec: rebuild the optimizer configuration from the
persisted projector and measurement stores (restart path). -/
def restartedConfig {n r m : ℕ} (labels : Fin m → Label n) (y : Fin m → ℂ)
    (eta mu : ℝ) (budget : ℕ) (tol : Option ℝ) (U0 : Matrix (Bits n) (Fin r) ℂ) :
    Config n r m :=
  ⟨fun k => loadStore (fun _ => PauliChar.I) (saveStore labels labels) (labels k),
   fun k => loadStore 0 (saveStore labels y) (labels k),
   eta, mu, budget, tol, U0⟩

/-- The parameter-dictionary keys the notebook passes to methods.BasicWorker
(qutomo_example.ipynb, cell-26). -/
def notebookParamKeys : List String :=
  ["measurement_store_path", "projector_store_path", "num_iterations", "eta",
   "mu", "n", "num_labels", "backend", "num_shots"]

/-- The density matrix the notebook caller forms externally from the worker's
one-dimensional state vector: np.outer(state, state.conj()) (cell-28). -/
def outerDensity {n : ℕ} (s : Bits n → ℂ) : Matrix (Bits n) (Bits n) ℂ :=
  Matrix.of fun a b => s a * (starRingEnd ℂ) (s b)

/-- The rank-1 factor (single-column matrix) carrying a 1-D state vector. -/
def colFactor {n : ℕ} (s : Bits n → ℂ) : Matrix (Bits n) (Fin 1) ℂ :=
  Matrix.of fun a _ => s a

/-- The reconstructed density matrix ρ = U·U† derived from a factor U. -/
def rho {n r : ℕ} (U : Matrix (Bits n) (Fin r) ℂ) : Matrix (Bits n) (Bits n) ℂ :=
  U * Uᴴ

/-- Claim C1: every MiFGD iteration follows the accelerated recipe — residual =
predict(Zᵢ) − y, grad = adjoint_apply(residual, Zᵢ) = Σₖ residualₖ·(Pₖ applied
to Zᵢ), U_{i+1} = Zᵢ − η·grad, Z_{i+1} = U_{i+1} + μ·(U_{i+1} − Uᵢ), with
Z₀ = U₀ at initialization. -/
theorem mifgd_iteration_recipe {n r m : ℕ} (cfg : Config n r m) (i : ℕ) :
    (trajectory cfg 0).Z = (trajectory cfg 0).U ∧
    (trajectory cfg (i + 1)).U
      = (trajectory cfg i).Z
        - (cfg.eta : ℂ) • adjointApply cfg.labels
            (fun k => predict cfg.labels (trajectory cfg i).Z k - cfg.y k)
            (trajectory cfg i).Z ∧
    (trajectory cfg (i + 1)).Z
      = (trajectory cfg (i + 1)).U
        + (cfg.mu : ℂ) • ((trajectory cfg (i + 1)).U - (trajectory cfg i).U) ∧
    adjointApply cfg.labels
        (fun k => predict cfg.labels (trajectory cfg i).Z k - cfg.y k)
        (trajectory cfg i).Z
      = ∑ k, (predict cfg.labels (trajectory cfg i).Z k - cfg.y k)
          • applyPauliCols (cfg.labels k) (trajectory cfg i).Z :=
  ⟨rfl, rfl, rfl, rfl⟩

/-- Claim C2: each entry of predict(U) computed through the efficient per-qubit
tensor-axis apply path equals Tr(Pₖ·U·U†) computed from the explicit dense
tensor-product construction of the Pauli operator. -/
theorem predict_refines_dense {n r m : ℕ} (Ls : Fin m → Label n)
    (U : Matrix (Bits n) (Fin r) ℂ) (k : Fin m) :
    predict Ls U k = Matrix.trace (densePauli (Ls k) * U * Uᴴ) :=
  quadForm_eq_trace (Ls k) U

/-- Claim C6: for every factor U (in particular every iterate the optimizer
produces), ρ = U·U† is positive semidefinite with rank at most r, by
construction and with no run-time check. -/
theorem rho_psd_and_lowrank {n r : ℕ} :
    (∀ U : Matrix (Bits n) (Fin r) ℂ, (rho U).PosSemidef ∧ (rho U).rank ≤ r) ∧
    ∀ (m : ℕ) (cfg : Config n r m) (i : ℕ),
      (rho ((trajectory cfg i).U)).PosSemidef ∧ (rho ((trajectory cfg i).U)).rank ≤ r := by
  have key : ∀ U : Matrix (Bits n) (Fin r) ℂ, (rho U).PosSemidef ∧ (rho U).rank ≤ r := by
    intro U
    constructor
    · exact Matrix.posSemidef_self_mul_conjTranspose U
    · calc (rho U).rank ≤ U.rank := Matrix.rank_mul_le_left U Uᴴ
        _ ≤ Fintype.card (Fin r) := Matrix.rank_le_card_width U
        _ = r := Fintype.card_fin r
  exact ⟨key, fun m cfg i => key ((trajectory cfg i).U)⟩

/-- Claim C8: applying a label's Pauli operator twice through the efficient
per-axis apply path returns the original vector exactly (Pauli involution). -/
theorem applyPauli_involutive {n : ℕ} (L : Label n) (v : Bits n → ℂ) :
    applyPauli L (applyPauli L v) = v := by
  rw [applyPauli_eq_mulVec, applyPauli_eq_mulVec, Matrix.mulVec_mulVec,
    densePauli_mul_self, Matrix.one_mulVec]

/-- Claim C10: the notebook's parameter dictionary carries no target-rank entry;
the worker's exposed result is a one-dimensional complex vector over the 2^n
bitstrings, and the density matrix is formed externally by the caller as the
outer product of that vector with its conjugate — which is exactly ρ = U·U† of
the corresponding single-column factor. -/
theorem worker_exposes_rank_one_state (n : ℕ) :
    "rank" ∉ notebookParamKeys ∧ "target_rank" ∉ notebookParamKeys ∧
    Fintype.card (Bits n) = 2 ^ n ∧
    ∀ s : Bits n → ℂ, outerDensity s = rho (colFactor s) := by
  refine ⟨by decide, by decide, ?_, ?_⟩
  · rw [Fintype.card_fun]
    simp
  · intro s
    ext a b
    simp [outerDensity, rho, colFactor, Matrix.mul_apply, Matrix.conjTranspose_apply,
      Fin.sum_univ_one, Complex.star_def]

/-- Claim C3: compute always reaches TERMINATED; it ends either with
BUDGET_EXHAUSTED at exactly the configured iteration budget, or with CONVERGED
because a configured tolerance was undercut by the relative change; the exposed
answer is the final U iterate, never Z. -/
theorem compute_terminates_spec {n r m : ℕ} (cfg : Config n r m) :
    (compute cfg).phase = Phase.TERMINATED ∧
    answer cfg = (compute cfg).finalState.U ∧
    (((compute cfg).reason = TermReason.BUDGET_EXHAUSTED ∧
        (compute cfg).finalState.iter = cfg.budget) ∨
      ((compute cfg).reason = TermReason.CONVERGED ∧
        ∃ τ prev, cfg.tol = some τ ∧ (compute cfg).finalState = stepState cfg prev ∧
          relChange prev.U (stepState cfg prev).U < τ)) := by
  have h := loopIter_spec cfg cfg.budget (initState cfg)
  refine ⟨rfl, rfl, ?_⟩
  cases hr : (loopIter cfg (initState cfg) cfg.budget).2 with
  | BUDGET_EXHAUSTED =>
    left
    refine ⟨hr, ?_⟩
    have h2 := h.1 hr
    show (loopIter cfg (initState cfg) cfg.budget).1.iter = cfg.budget
    rw [h2]
    show 0 + cfg.budget = cfg.budget
    omega
  | CONVERGED =>
    right
    exact ⟨hr, h.2 hr⟩

/-- Claim C4: if the projector and measurement label sets disagree, or some
histogram total differs from the configured shot count, worker construction
fails with a DataMismatchError and compute never runs. -/
theorem dataMismatch_failfast {n r m : ℕ} (d : RawData n) (cfg : Config n r m)
    (h : d.projLabels.toFinset ≠ d.measLabels.toFinset ∨
      ∃ L ∈ d.measLabels, (∑ b, d.hist L b) ≠ d.shots) :
    ∃ e, runPipeline d cfg = Except.error e := by
  rcases h with hne | ⟨L, hL, hsum⟩
  · refine ⟨DataMismatchError.labelSetMismatch, ?_⟩
    unfold runPipeline mkWorker validateData
    rw [if_neg hne]
    rfl
  · by_cases hset : d.projLabels.toFinset = d.measLabels.toFinset
    · refine ⟨DataMismatchError.badShotTotal, ?_⟩
      unfold runPipeline mkWorker validateData
      rw [if_pos hset, if_neg (fun hall => hsum (hall L hL))]
      rfl
    · refine ⟨DataMismatchError.labelSetMismatch, ?_⟩
      unfold runPipeline mkWorker validateData
      rw [if_neg hset]
      rfl

/-- Scenario B of the spec: projector labels X,Y but measurement labels X,Z. -/
def scenarioB : RawData 1 :=
  ⟨[fun _ => PauliChar.X, fun _ => PauliChar.Y],
   [fun _ => PauliChar.X, fun _ => PauliChar.Z],
   fun _ _ => 0, 0⟩

/-- A small concrete optimizer configuration used to exercise the model. -/
def smallConfig : Config 1 1 1 :=
  ⟨fun _ => fun _ => PauliChar.I, fun _ => 0, 0, 0, 1, none, 0⟩

theorem dataMismatch_witness :
    (scenarioB.projLabels.toFinset ≠ scenarioB.measLabels.toFinset ∨
      ∃ L ∈ scenarioB.measLabels, (∑ b, scenarioB.hist L b) ≠ scenarioB.shots) ∧
    ∃ e, runPipeline scenarioB smallConfig = Except.error e :=
  ⟨Or.inl (by decide), dataMismatch_failfast scenarioB smallConfig (Or.inl (by decide))⟩

/-- Claim C5: the aggregator's expectation value is the parity-weighted sample
mean and always lies in [−1, 1] when the histogram totals the shot count. -/
theorem aggregator_bounds {n : ℕ} (L : Label n) (hist : Bits n → ℕ) (shots : ℕ)
    (h : (∑ b, hist b) = shots) :
    expectation L hist shots
        = ∑ b, (parity L b : ℚ) * ((hist b : ℚ) / (shots : ℚ)) ∧
      -1 ≤ expectation L hist shots ∧ expectation L hist shots ≤ 1 := by
  refine ⟨rfl, ?_⟩
  have habs : |expectation L hist shots| ≤ 1 := by
    calc |expectation L hist shots|
        ≤ ∑ b, |(parity L b : ℚ) * ((hist b : ℚ) / (shots : ℚ))| :=
          Finset.abs_sum_le_sum_abs _ _
      _ = ∑ b, (hist b : ℚ) / (shots : ℚ) := by
          refine Finset.sum_congr rfl fun b _ => ?_
          rw [abs_mul]
          have h1 : |(parity L b : ℚ)| = 1 := by
            rw [← Int.cast_abs, parity_abs, Int.cast_one]
          rw [h1, one_mul,
            abs_of_nonneg (div_nonneg (Nat.cast_nonneg _) (Nat.cast_nonneg _))]
      _ = ((∑ b, hist b : ℕ) : ℚ) / (shots : ℚ) := by
          rw [← Finset.sum_div]
          push_cast
          rfl
      _ ≤ 1 := by
          rw [h]
          rcases Nat.eq_zero_or_pos shots with hs | hs
          · subst hs; simp
          · rw [div_self (Nat.cast_ne_zero.mpr (Nat.pos_iff_ne_zero.mp hs))]
  exact ⟨(abs_le.mp habs).1, (abs_le.mp habs).2⟩

/-- A concrete outcome histogram over one qubit with 4 shots. -/
def histW : Bits 1 → ℕ := fun b => if b 0 = 0 then 3 else 1

theorem aggregator_witness :
    (∑ b, histW b) = 4 ∧
    (expectation (fun _ : Fin 1 => PauliChar.Z) histW 4
        = ∑ b, (parity (fun _ : Fin 1 => PauliChar.Z) b : ℚ) * ((histW b : ℚ) / (4 : ℚ)) ∧
      -1 ≤ expectation (fun _ : Fin 1 => PauliChar.Z) histW 4 ∧
      expectation (fun _ : Fin 1 => PauliChar.Z) histW 4 ≤ 1) :=
  ⟨by decide, aggregator_bounds (fun _ : Fin 1 => PauliChar.Z) histW 4 (by decide)⟩

/-- Claim C7: if the checked iteration from state st produces a non-finite
value, the loop raises the numerical error at that very iteration and returns
the last valid state st unchanged — it is never iterated further. -/
theorem numericalError_failfast {n r m : ℕ} (cfg : Config n r m) (finOk : ℂ → Bool)
    (st : WorkerState n r) (fuel : ℕ) (e : NumericalError)
    (h : stepChecked cfg finOk st = Except.error e) :
    loopChecked cfg finOk st (fuel + 1) = Except.error (e, st) := by
  unfold loopChecked
  rw [h]

theorem numericalError_witness :
    stepChecked smallConfig (fun _ => false) ⟨0, 0, 0⟩
        = Except.error NumericalError.nonFinite ∧
    loopChecked smallConfig (fun _ => false) ⟨0, 0, 0⟩ 1
        = Except.error (NumericalError.nonFinite, ⟨0, 0, 0⟩) := by
  have h : stepChecked smallConfig (fun _ => false) ⟨0, 0, 0⟩
      = Except.error NumericalError.nonFinite := by rfl
  exact ⟨h, numericalError_failfast smallConfig (fun _ => false) ⟨0, 0, 0⟩ 0
    NumericalError.nonFinite h⟩

/-- Claim C9: the optimizer is deterministic in its inputs, and a run restarted
from persisted projector/measurement stores reproduces the same iteration
trajectory as the in-memory run, state by state. -/
theorem restart_reproduces_trajectory {n r m : ℕ} (labels : Fin m → Label n)
    (hinj : Function.Injective labels) (y : Fin m → ℂ) (eta mu : ℝ) (budget : ℕ)
    (tol : Option ℝ) (U0 : Matrix (Bits n) (Fin r) ℂ) :
    (∀ i, trajectory (restartedConfig labels y eta mu budget tol U0) i
        = trajectory ⟨labels, y, eta, mu, budget, tol, U0⟩ i) ∧
    ∀ (c1 c2 : Config n r m), c1 = c2 → ∀ i, trajectory c1 i = trajectory c2 i := by
  constructor
  · have h1 : (fun k => loadStore (fun _ => PauliChar.I) (saveStore labels labels)
        (labels k)) = labels :=
      funext fun k => loadStore_saveStore labels hinj labels _ k
    have h2 : (fun k => loadStore 0 (saveStore labels y) (labels k)) = y :=
      funext fun k => loadStore_saveStore labels hinj y 0 k
    intro i
    unfold restartedConfig
    rw [h1, h2]
  · intro c1 c2 hc i
    rw [hc]

/-- A concrete injective one-qubit label family. -/
def lblW : Fin 1 → Label 1 := fun _ => fun _ => PauliChar.X

theorem restart_witness :
    Function.Injective lblW ∧
    ((∀ i, trajectory (restartedConfig lblW (fun _ => 0) 0 0 1 none
          (0 : Matrix (Bits 1) (Fin 1) ℂ)) i
        = trajectory ⟨lblW, fun _ => 0, 0, 0, 1, none, 0⟩ i) ∧
      ∀ (c1 c2 : Config 1 1 1), c1 = c2 → ∀ i, trajectory c1 i = trajectory c2 i) :=
  ⟨by decide, restart_reproduces_trajectory lblW (by decide) (fun _ => 0) 0 0 1 none
    (0 : Matrix (Bits 1) (Fin 1) ℂ)⟩

end

end MiFGD
